import Mathlib

/-!
Shallow embedding of `ceruleanserver/ais.py` (class `AISO`): the slick-to-vessel
attribution algorithm `find_coincidents`, the table preparation done by
`run_big_query` (sorting the AIS dataframe by timestamp), and the aggregation
step `record_coincidents`.

Geometry is abstracted: a polygon is an opaque value of a type parameter `Poly`,
and the shapely distance computation `ais['geometry'].distance(poly_geo)` is a
parameter `dc : Poly → Report → ℚ`.  Float division `1 / 0.0 = inf` is modelled
by the type `Score` (`ℚ` extended with an infinity absorbing addition), matching
the `inv` column of the dataframe.
-/

set_option allowUnsafeReducibility true

attribute [local semireducible] Rat.add Rat.sub Rat.mul Rat.div Rat.inv Rat.ofScientific

namespace Cerulean

/-- One AIS position report: a row of `ais_df` as produced by `run_big_query`
(columns `mmsi`, `timestamp`, `lon`, `lat`, `speed`). -/
structure Report where
  mmsi : Nat
  timestamp : Int
  lon : ℚ
  lat : ℚ
  speed : Option ℚ
deriving DecidableEq, Repr

/-- Float values arising in the `inv` column: finite rationals plus `+inf`
(the value of `1 / 0.0` in numpy). -/
inductive Score where
  | inf : Score
  | fin : ℚ → Score
deriving DecidableEq, Repr

namespace Score

/-- Float addition restricted to the values occurring here: `inf` absorbs. -/
def add : Score → Score → Score
  | inf, _ => inf
  | fin _, inf => inf
  | fin a, fin b => fin (a + b)

instance : Add Score := ⟨add⟩

/-- Division of a (possibly infinite) sum by a row count: `inf / n = inf`. -/
def divNat : Score → Nat → Score
  | inf, _ => inf
  | fin a, n => fin (a / (n : ℚ))

/-- Sum of a list of extended values, as numpy sums the `inv` column. -/
def suml (l : List Score) : Score := l.foldr add (fin 0)

/-- The float order on the extended values. -/
def leB : Score → Score → Bool
  | _, inf => true
  | inf, fin _ => false
  | fin a, fin b => decide (a ≤ b)

instance : LE Score := ⟨fun a b => leB a b = true⟩

instance decLe (a b : Score) : Decidable (a ≤ b) :=
  inferInstanceAs (Decidable (leB a b = true))

end Score

/-- `1 / dist` as computed (line 117) with no zero guard: numpy yields `inf`
at a direct hit. -/
def invTop (q : ℚ) : Score := if q = 0 then Score.inf else Score.fin (1 / q)

/-- Mean of the `inv` values of a list of distances (float semantics: any
direct hit makes the mean infinite). -/
def meanInv (l : List ℚ) : Score := Score.divNat (Score.suml (l.map invTop)) l.length

/-- All rows of a given vessel (`ais_df[ais_df['mmsi'] == v]`). -/
def reportsOf (ais : List Report) (v : Nat) : List Report :=
  ais.filter (fun r => r.mmsi == v)

/-- The distinct vessel ids present in the window, in ascending order (the
sorted index produced by pandas `groupby('mmsi')`). -/
def present_mmsis (ais : List Report) : List Nat :=
  ((ais.map Report.mmsi).dedup).insertionSort (· ≤ ·)

/-- Number of direct hits of vessel `v` on the current polygon
(`ais[direct_hits].groupby('mmsi').count()`, line 122). -/
def hit_count (dc : Report → ℚ) (ais : List Report) (v : Nat) : Nat :=
  (ais.filter (fun r => r.mmsi == v && decide (dc r = 0))).length

/-- `direct_hits.any()` (line 119). -/
def any_hits (dc : Report → ℚ) (ais : List Report) : Bool :=
  ais.any (fun r => decide (dc r = 0))

/-- `hit_counts['dist'].max()` (line 123): the largest per-vessel hit count. -/
def max_hit_count (dc : Report → ℚ) (ais : List Report) : Nat :=
  ((present_mmsis ais).map (hit_count dc ais)).foldr Nat.max 0

/-- `most_likely_mmsis` (lines 119-123): with no direct hit every present
vessel is a candidate; otherwise the vessels attaining the maximal hit count. -/
def most_likely_mmsis (dc : Report → ℚ) (ais : List Report) : List Nat :=
  if any_hits dc ais then
    (present_mmsis ais).filter (fun v => hit_count dc ais v == max_hit_count dc ais)
  else
    present_mmsis ais

/-- The distances of vessel `v`'s non-hit rows (`ais[~direct_hits]` restricted
to `v`). -/
def non_hit_dists (dc : Report → ℚ) (ais : List Report) (v : Nat) : List ℚ :=
  (ais.filter (fun r => r.mmsi == v && !(decide (dc r = 0)))).map dc

/-- `proximity` (line 125): per-vessel mean of `inv` over the non-hit rows.
Only evaluated at vessels with at least one non-hit row (pandas drops empty
groups). -/
def prox_mean (dc : Report → ℚ) (ais : List Report) (v : Nat) : ℚ :=
  ((non_hit_dists dc ais v).map (fun q => 1 / q)).sum / ((non_hit_dists dc ais v).length : ℚ)

/-- The index of the series `proximity[proximity.index.isin(most_likely_mmsis)]`
(line 126): most-likely vessels owning at least one non-hit row, ascending. -/
def candidates (dc : Report → ℚ) (ais : List Report) : List Nat :=
  (present_mmsis ais).filter
    (fun v => (most_likely_mmsis dc ais).contains v && !(non_hit_dists dc ais v).isEmpty)

/-- `Series.idxmax`: the first key attaining the maximal value; `none` on an
empty series (pandas raises `ValueError` there). -/
def argmaxFirst (f : Nat → ℚ) : List Nat → Option Nat
  | [] => none
  | k :: ks =>
    match argmaxFirst f ks with
    | none => some k
    | some m => if f k < f m then some m else some k

/-- `closest_mmsi` (line 126). -/
def closest_mmsi (dc : Report → ℚ) (ais : List Report) : Option Nat :=
  argmaxFirst (prox_mean dc ais) (candidates dc ais)

/-- The rows entering the final score of vessel `v` (line 128): restrict to
most-likely vessels, then group by mmsi and take `v`'s group. -/
def score_rows (dc : Report → ℚ) (ais : List Report) (v : Nat) : List Report :=
  (ais.filter (fun r => (most_likely_mmsis dc ais).contains r.mmsi)).filter
    (fun r => r.mmsi == v)

/-- `score` (line 128): mean of `inv` over `v`'s rows among the most-likely
rows, direct hits included. -/
def poly_score (dc : Report → ℚ) (ais : List Report) (v : Nat) : Score :=
  meanInv ((score_rows dc ais v).map dc)

/-- One iteration of the loop of `find_coincidents` for a single polygon,
given its distance column `dc`: the attributed vessel and its score, or `none`
when `idxmax` raises on an empty series. -/
def polyStep (dc : Report → ℚ) (ais : List Report) : Option (Nat × Score) :=
  match closest_mmsi dc ais with
  | none => none
  | some v => some (v, poly_score dc ais v)

/-- The mean inverse distance over all reports of vessel `v` (direct hits
included as infinite terms): the score the spec describes for the winning
vessel.  `polyStep_score_eq` relates it to the nested filter of line 128. -/
def vesselScore (dc : Report → ℚ) (ais : List Report) (v : Nat) : Score :=
  meanInv ((reportsOf ais v).map dc)

/-- The accumulated `coincidents` dictionary: vessel id to list of
`(poly_id, score)`, in insertion order. -/
abbrev Coins := List (Nat × List (Nat × Score))

/-- All recorded `poly_id`s of the dictionary, across every vessel. -/
def flat_ids : Coins → List Nat
  | [] => []
  | e :: es => e.2.map Prod.fst ++ flat_ids es

/-- `coincidents.setdefault(closest_mmsi, []).append((poly_id, score))`
(line 130). -/
def setdefault_append (m : Coins) (k : Nat) (pr : Nat × Score) : Coins :=
  match m with
  | [] => [(k, [pr])]
  | e :: es => if e.1 == k then (e.1, e.2 ++ [pr]) :: es else e :: setdefault_append es k pr

/-- A row of `ais_df` with the two derived columns the loop writes
(lines 116-117); `none` before the first assignment. -/
structure Row where
  base : Report
  dist : Option ℚ
  inv : Option Score
deriving DecidableEq, Repr

/-- The column assignments `ais_df['dist'] = ...; ais_df['inv'] = ...`
(lines 116-117) for one polygon. -/
def assignCols (t : List Row) (dc : Report → ℚ) : List Row :=
  t.map (fun r => { r with dist := some (dc r.base), inv := some (invTop (dc r.base)) })

/-- The loop of `find_coincidents` (lines 115-130): write the derived columns,
run the per-polygon attribution, record the winner; an uncaught `ValueError`
aborts the whole run (result `none`), leaving the table as last written. -/
def runAux {Poly : Type} (dc : Poly → Report → ℚ) :
    List Poly → Nat → Coins → List Row → Option Coins × List Row
  | [], _, acc, t => (some acc, t)
  | p :: ps, i, acc, t =>
    match polyStep (dc p) (t.map Row.base) with
    | none => (none, assignCols t (dc p))
    | some vs => runAux dc ps (i + 1) (setdefault_append acc vs.1 (i, vs.2)) (assignCols t (dc p))

/-- The timestamp order used by `sort_values('timestamp')` in `run_big_query`
(line 107). -/
def tsLe (a b : Report) : Prop := a.timestamp ≤ b.timestamp

instance : DecidableRel tsLe := fun a b => inferInstanceAs (Decidable (a.timestamp ≤ b.timestamp))

instance : IsTotal Report tsLe := ⟨fun a b => Int.le_total a.timestamp b.timestamp⟩

instance : IsTrans Report tsLe := ⟨fun _ _ _ h h' => Int.le_trans h h'⟩

/-- `run_big_query` (line 107): the dataframe is sorted ascending by
timestamp before attribution. -/
def sort_by_ts (raw : List Report) : List Report :=
  raw.insertionSort tsLe

/-- The freshly loaded table: sorted rows, derived columns absent. -/
def initTable (raw : List Report) : List Row :=
  (sort_by_ts raw).map (fun r => ⟨r, none, none⟩)

/-- The whole run of `find_coincidents` over the sub-polygons of the slick
multipolygon: the `coincidents` dictionary (or `none` on an uncaught error)
together with the final state of the table. -/
def runFull {Poly : Type} (dc : Poly → Report → ℚ) (polys : List Poly) (raw : List Report) :
    Option Coins × List Row :=
  runAux dc polys 0 [] (initTable raw)

/-- `find_coincidents` proper: just the resulting dictionary. -/
def find_coincidents {Poly : Type} (dc : Poly → Report → ℚ) (polys : List Poly)
    (raw : List Report) : Option Coins :=
  (runFull dc polys raw).1

/-- The report table as left behind by the run. -/
def tableAfter {Poly : Type} (dc : Poly → Report → ℚ) (polys : List Poly)
    (raw : List Report) : List Row :=
  (runFull dc polys raw).2

/-- `ais_df[ais_df['mmsi']==mmsi]['geometry']` (line 137): the points of the
vessel's LineString, in dataframe order. -/
def lineOf (ais : List Report) (v : Nat) : List Report :=
  ais.filter (fun r => r.mmsi == v)

/-- `MultiPolygon([inf_multipolygon[poly_id[0]] for poly_id in coincidents[mmsi]])`
(line 136): the sub-polygons attributed to one vessel. -/
def multiOf {Poly : Type} (polys : List Poly) (lst : List (Nat × Score)) : List Poly :=
  lst.filterMap (fun pr => polys.get? pr.1)

/-- `record_coincidents` (lines 132-143): per attributed vessel, the
aggregated multipolygon and the track line. -/
def record_coincidents {Poly : Type} (polys : List Poly) (ais : List Report)
    (coins : Coins) : List (Nat × List Poly × List Report) :=
  coins.map (fun e => (e.1, multiOf polys e.2, lineOf ais e.1))

/-- A concrete position report on the equator at longitude `x`, for test runs. -/
def wr (m : Nat) (t : Int) (x : ℚ) : Report := ⟨m, t, x, 0, none⟩

/-- A concrete distance column: distance along the equator from a report to a
point polygon at longitude `p`. -/
def dLine (p : ℚ) (r : Report) : ℚ := if r.lon ≤ p then p - r.lon else r.lon - p

/-! ### Basic facts about the extended values -/

theorem Score.le_rfl (s : Score) : s ≤ s := by
  cases s with
  | inf => rfl
  | fin a => show Score.leB _ _ = true; simp [Score.leB]

theorem Score.le_inf (s : Score) : s ≤ Score.inf := by
  cases s <;> rfl

theorem Score.fin_le_fin {a b : ℚ} : Score.fin a ≤ Score.fin b ↔ a ≤ b := by
  show Score.leB _ _ = true ↔ _
  simp [Score.leB]

theorem Score.suml_eq_inf_of_mem {l : List Score} (h : Score.inf ∈ l) :
    Score.suml l = Score.inf := by
  induction l with
  | nil => cases h
  | cons x xs ih =>
    rcases List.mem_cons.mp h with h | h
    · subst h; rfl
    · show Score.add x (Score.suml xs) = Score.inf
      rw [ih h]; cases x <;> rfl

theorem Score.suml_map_fin (f : ℚ → ℚ) (l : List ℚ) :
    Score.suml (l.map (fun q => Score.fin (f q))) = Score.fin ((l.map f).sum) := by
  induction l with
  | nil => rfl
  | cons x xs ih =>
    show Score.add _ (Score.suml _) = _
    rw [ih]; simp [Score.add]

theorem meanInv_eq_inf_of_mem {l : List ℚ} (h : (0 : ℚ) ∈ l) : meanInv l = Score.inf := by
  unfold meanInv
  rw [Score.suml_eq_inf_of_mem (by
    refine List.mem_map.mpr ⟨0, h, ?_⟩
    simp [invTop])]
  rfl

theorem meanInv_eq_fin {l : List ℚ} (h : ∀ x ∈ l, x ≠ 0) :
    meanInv l = Score.fin ((l.map (fun q => 1 / q)).sum / (l.length : ℚ)) := by
  unfold meanInv
  have : l.map invTop = l.map (fun q => Score.fin (1 / q)) :=
    List.map_congr_left (fun x hx => by simp [invTop, h x hx])
  rw [this, Score.suml_map_fin]
  rfl

/-! ### Generic list facts -/

theorem le_foldr_max {L : List Nat} {x : Nat} (h : x ∈ L) : x ≤ L.foldr Nat.max 0 := by
  induction L with
  | nil => cases h
  | cons y ys ih =>
    rcases List.mem_cons.mp h with h | h
    · subst h; exact Nat.le_max_left _ _
    · exact Nat.le_trans (ih h) (Nat.le_max_right _ _)

theorem foldr_max_le {L : List Nat} {b : Nat} (h : ∀ x ∈ L, x ≤ b) : L.foldr Nat.max 0 ≤ b := by
  induction L with
  | nil => exact Nat.zero_le b
  | cons y ys ih =>
    exact Nat.max_le.mpr ⟨h y (List.mem_cons_self y ys), ih fun x hx => h x (List.mem_cons_of_mem y hx)⟩

theorem nodup_eq_singleton {L : List Nat} {a : Nat} (hnd : L.Nodup) (ha : a ∈ L)
    (hall : ∀ x ∈ L, x = a) : L = [a] := by
  cases L with
  | nil => cases ha
  | cons y ys =>
    have hy : y = a := hall y (List.mem_cons_self y ys)
    subst hy
    cases ys with
    | nil => rfl
    | cons z zs =>
      have hz : z = y := hall z (List.mem_cons_of_mem y (List.mem_cons_self z zs))
      have hnotin : y ∉ z :: zs := (List.nodup_cons.mp hnd).1
      exact absurd (by rw [hz]; exact List.mem_cons_self _ _) hnotin

theorem filter_eq_singleton {L : List Nat} {p : Nat → Bool} {a : Nat} (hnd : L.Nodup)
    (ha : a ∈ L) (hpa : p a = true) (hall : ∀ x ∈ L, p x = true → x = a) :
    L.filter p = [a] := by
  refine nodup_eq_singleton (hnd.filter p) (List.mem_filter.mpr ⟨ha, hpa⟩) ?_
  intro x hx
  rcases List.mem_filter.mp hx with ⟨hxL, hpx⟩
  exact hall x hxL hpx

theorem filterMap_length_of_isSome {α β : Type} {f : α → Option β} {l : List α}
    (h : ∀ x ∈ l, (f x).isSome) : (l.filterMap f).length = l.length := by
  induction l with
  | nil => rfl
  | cons x xs ih =>
    rcases Option.isSome_iff_exists.mp (h x (List.mem_cons_self x xs)) with ⟨b, hb⟩
    rw [List.filterMap_cons, hb, List.length_cons, ih fun y hy => h y (List.mem_cons_of_mem x hy)]
    rfl

/-! ### Facts about `argmaxFirst` (`Series.idxmax`) -/

theorem argmaxFirst_cons (f : Nat → ℚ) (k : Nat) (ks : List Nat) :
    argmaxFirst f (k :: ks) =
      match argmaxFirst f ks with
      | none => some k
      | some m => if f k < f m then some m else some k := rfl

theorem argmaxFirst_mem {f : Nat → ℚ} {l : List Nat} {v : Nat} (h : argmaxFirst f l = some v) :
    v ∈ l := by
  induction l generalizing v with
  | nil => cases h
  | cons k ks ih =>
    rw [argmaxFirst_cons] at h
    cases hks : argmaxFirst f ks with
    | none =>
      rw [hks] at h
      have h' : some k = some v := h
      cases h'; exact List.mem_cons_self _ _
    | some m =>
      rw [hks] at h
      have h' : (if f k < f m then some m else some k) = some v := h
      by_cases hlt : f k < f m
      · rw [if_pos hlt] at h'; cases h'; exact List.mem_cons_of_mem _ (ih hks)
      · rw [if_neg hlt] at h'; cases h'; exact List.mem_cons_self _ _

theorem argmaxFirst_isSome {f : Nat → ℚ} {l : List Nat} (h : l ≠ []) :
    ∃ v, argmaxFirst f l = some v := by
  cases l with
  | nil => exact absurd rfl h
  | cons k ks =>
    rw [argmaxFirst_cons]
    cases argmaxFirst f ks with
    | none => exact ⟨k, rfl⟩
    | some m =>
      by_cases hlt : f k < f m
      · refine ⟨m, ?_⟩
        show (if f k < f m then some m else some k) = some m
        rw [if_pos hlt]
      · refine ⟨k, ?_⟩
        show (if f k < f m then some m else some k) = some k
        rw [if_neg hlt]

theorem argmaxFirst_le {f : Nat → ℚ} {l : List Nat} {v : Nat} (h : argmaxFirst f l = some v) :
    ∀ w ∈ l, f w ≤ f v := by
  induction l generalizing v with
  | nil => intro w hw; cases hw
  | cons k ks ih =>
    intro w hw
    rw [argmaxFirst_cons] at h
    cases hks : argmaxFirst f ks with
    | none =>
      rw [hks] at h
      have h' : some k = some v := h
      cases h'
      rcases List.mem_cons.mp hw with h | h
      · subst h; exact le_refl _
      · rcases argmaxFirst_isSome (f := f) (List.ne_nil_of_mem h) with ⟨u, hu⟩
        rw [hu] at hks; cases hks
    | some m =>
      rw [hks] at h
      have h' : (if f k < f m then some m else some k) = some v := h
      by_cases hlt : f k < f m
      · rw [if_pos hlt] at h'; cases h'
        rcases List.mem_cons.mp hw with h | h
        · subst h; exact le_of_lt hlt
        · exact ih hks w h
      · rw [if_neg hlt] at h'; cases h'
        rcases List.mem_cons.mp hw with h | h
        · subst h; exact le_refl _
        · exact le_trans (ih hks w h) (not_lt.mp hlt)

/-! ### Membership in the derived vessel lists -/

theorem mem_present_mmsis {ais : List Report} {v : Nat} :
    v ∈ present_mmsis ais ↔ ∃ r ∈ ais, r.mmsi = v := by
  unfold present_mmsis
  rw [(List.perm_insertionSort _ _).mem_iff, List.mem_dedup, List.mem_map]

theorem present_mmsis_nodup (ais : List Report) : (present_mmsis ais).Nodup :=
  (List.perm_insertionSort _ _).nodup_iff.mpr (List.nodup_dedup _)

theorem mem_candidates {dc : Report → ℚ} {ais : List Report} {v : Nat} :
    v ∈ candidates dc ais ↔
      v ∈ present_mmsis ais ∧ v ∈ most_likely_mmsis dc ais ∧
        non_hit_dists dc ais v ≠ [] := by
  unfold candidates
  rw [List.mem_filter, Bool.and_eq_true]
  constructor
  · rintro ⟨hp, hc, he⟩
    refine ⟨hp, List.elem_iff.mp hc, ?_⟩
    intro hnil
    rw [hnil] at he
    cases he
  · rintro ⟨hp, hm, hne⟩
    refine ⟨hp, List.elem_iff.mpr hm, ?_⟩
    cases hl : non_hit_dists dc ais v with
    | nil => exact absurd hl hne
    | cons x xs => rfl

theorem polyStep_some {dc : Report → ℚ} {ais : List Report} {v : Nat} {s : Score}
    (h : polyStep dc ais = some (v, s)) :
    closest_mmsi dc ais = some v ∧ s = poly_score dc ais v := by
  unfold polyStep at h
  cases hc : closest_mmsi dc ais with
  | none => rw [hc] at h; cases h
  | some w =>
    rw [hc] at h
    have h' : some (w, poly_score dc ais w) = some (v, s) := h
    injection h' with h''
    injection h'' with h1 h2
    subst h1; subst h2
    exact ⟨rfl, rfl⟩

theorem contains_eq_true_of_mem {l : List Nat} {v : Nat} (h : v ∈ l) :
    l.contains v = true := List.elem_iff.mpr h

theorem score_rows_eq_reportsOf {dc : Report → ℚ} {ais : List Report} {v : Nat}
    (hv : v ∈ most_likely_mmsis dc ais) : score_rows dc ais v = reportsOf ais v := by
  unfold score_rows reportsOf
  rw [List.filter_filter]
  apply List.filter_congr
  intro r _
  by_cases hmv : r.mmsi = v
  · subst hmv
    simp only [contains_eq_true_of_mem hv]
    simp [hv]
  · simp [hmv]

/-- The recorded score of the winner is the mean inverse distance over all of
its reports: the restriction to `most_likely_mmsis` rows followed by the
group-by at the winner is exactly the winner's own rows. -/
theorem polyStep_score_eq {dc : Report → ℚ} {ais : List Report} {v : Nat} {s : Score}
    (h : polyStep dc ais = some (v, s)) : s = vesselScore dc ais v := by
  obtain ⟨hc, hs⟩ := polyStep_some h
  have hv : v ∈ most_likely_mmsis dc ais := (mem_candidates.mp (argmaxFirst_mem hc)).2.1
  rw [hs]
  unfold poly_score vesselScore
  rw [score_rows_eq_reportsOf hv]

theorem vesselScore_inf_of_hit {dc : Report → ℚ} {ais : List Report} {v : Nat}
    (hh : ∃ r ∈ ais, r.mmsi = v ∧ dc r = 0) : vesselScore dc ais v = Score.inf := by
  rcases hh with ⟨r, hr, hmr, hdr⟩
  unfold vesselScore
  apply meanInv_eq_inf_of_mem
  rw [← hdr]
  refine List.mem_map_of_mem dc ?_
  unfold reportsOf
  exact List.mem_filter.mpr ⟨hr, by simp [hmr]⟩

/-! ### The candidate set under strict direct-hit dominance -/

theorem hit_count_eq_zero_of_no_hits {dc : Report → ℚ} {ais : List Report}
    (h : any_hits dc ais = false) (v : Nat) : hit_count dc ais v = 0 := by
  unfold hit_count
  rw [List.length_eq_zero, List.filter_eq_nil_iff]
  intro r hr
  unfold any_hits at h
  have := List.any_eq_false.mp h r hr
  simp only [Bool.and_eq_true, not_and]
  intro
  simpa using this

theorem max_hit_count_eq {dc : Report → ℚ} {ais : List Report} {A : Nat}
    (hpres : A ∈ present_mmsis ais)
    (hdom : ∀ v ∈ present_mmsis ais, v ≠ A → hit_count dc ais v < hit_count dc ais A) :
    max_hit_count dc ais = hit_count dc ais A := by
  unfold max_hit_count
  refine Nat.le_antisymm (foldr_max_le ?_) (le_foldr_max (List.mem_map_of_mem _ hpres))
  intro x hx
  rcases List.mem_map.mp hx with ⟨v, hv, hfx⟩
  subst hfx
  by_cases hvA : v = A
  · subst hvA; exact Nat.le_refl _
  · exact Nat.le_of_lt (hdom v hv hvA)

theorem most_likely_eq_single {dc : Report → ℚ} {ais : List Report} {A : Nat}
    (hpres : A ∈ present_mmsis ais)
    (hdom : ∀ v ∈ present_mmsis ais, v ≠ A → hit_count dc ais v < hit_count dc ais A) :
    most_likely_mmsis dc ais = [A] := by
  unfold most_likely_mmsis
  cases hh : any_hits dc ais with
  | false =>
    simp only [Bool.false_eq_true, if_false]
    refine nodup_eq_singleton (present_mmsis_nodup ais) hpres ?_
    intro v hv
    by_contra hvA
    have := hdom v hv hvA
    rw [hit_count_eq_zero_of_no_hits hh v, hit_count_eq_zero_of_no_hits hh A] at this
    exact Nat.lt_irrefl 0 this
  | true =>
    simp only [if_true]
    refine filter_eq_singleton (present_mmsis_nodup ais) hpres ?_ ?_
    · rw [max_hit_count_eq hpres hdom]
      simp
    · intro v hv hpv
      by_contra hvA
      have hlt := hdom v hv hvA
      have : hit_count dc ais v = max_hit_count dc ais := by simpa using hpv
      rw [max_hit_count_eq hpres hdom] at this
      rw [this] at hlt
      exact Nat.lt_irrefl _ hlt

theorem candidates_eq_single {dc : Report → ℚ} {ais : List Report} {A : Nat}
    (hpres : A ∈ present_mmsis ais)
    (hml : most_likely_mmsis dc ais = [A])
    (hnh : non_hit_dists dc ais A ≠ []) :
    candidates dc ais = [A] := by
  unfold candidates
  refine filter_eq_singleton (present_mmsis_nodup ais) hpres ?_ ?_
  · rw [Bool.and_eq_true]
    refine ⟨?_, ?_⟩
    · rw [hml]; exact contains_eq_true_of_mem (List.mem_cons_self _ _)
    · cases hl : non_hit_dists dc ais A with
      | nil => exact absurd hl hnh
      | cons x xs => rfl
  · intro v hv hpv
    rw [Bool.and_eq_true] at hpv
    have : v ∈ [A] := hml ▸ List.elem_iff.mp hpv.1
    simpa using this

/-! ### The accumulated dictionary across the loop -/

theorem flat_ids_setdefault (m : Coins) (k : Nat) (pr : Nat × Score) :
    List.Perm (flat_ids (setdefault_append m k pr)) (pr.1 :: flat_ids m) := by
  induction m with
  | nil => simp [setdefault_append, flat_ids]
  | cons e es ih =>
    unfold setdefault_append
    cases hk : (e.1 == k) with
    | true =>
      rw [if_pos rfl]
      show List.Perm ((e.2 ++ [pr]).map Prod.fst ++ flat_ids es) (pr.1 :: (e.2.map Prod.fst ++ flat_ids es))
      rw [List.map_append, List.append_assoc]
      exact List.perm_middle
    | false =>
      rw [if_neg (by simp)]
      show List.Perm (e.2.map Prod.fst ++ flat_ids (setdefault_append es k pr))
        (pr.1 :: (e.2.map Prod.fst ++ flat_ids es))
      exact (ih.append_left _).trans List.perm_middle

theorem runAux_perm {Poly : Type} (dc : Poly → Report → ℚ) :
    ∀ (ps : List Poly) (i : Nat) (acc : Coins) (t : List Row) (m : Coins),
      (runAux dc ps i acc t).1 = some m →
      List.Perm (flat_ids m) (flat_ids acc ++ List.range' i ps.length) := by
  intro ps
  induction ps with
  | nil =>
    intro i acc t m h
    have h' : some acc = some m := h
    cases h'
    simp
  | cons p ps ih =>
    intro i acc t m h
    rw [runAux] at h
    cases hs : polyStep (dc p) (t.map Row.base) with
    | none =>
      rw [hs] at h
      cases h
    | some vs =>
      rw [hs] at h
      have h' := ih (i + 1) (setdefault_append acc vs.1 (i, vs.2)) (assignCols t (dc p)) m h
      have hperm := flat_ids_setdefault acc vs.1 (i, vs.2)
      refine (h'.trans ((hperm.append_right _).trans ?_))
      have hmid : List.Perm (i :: (flat_ids acc ++ List.range' (i + 1) ps.length))
          (flat_ids acc ++ i :: List.range' (i + 1) ps.length) := List.perm_middle.symm
      have hr : flat_ids acc ++ i :: List.range' (i + 1) ps.length =
          flat_ids acc ++ List.range' i (ps.length + 1) := by rw [List.range'_succ]
      exact hr ▸ hmid

theorem mem_flat_ids {m : Coins} {e : Nat × List (Nat × Score)} (he : e ∈ m)
    {pr : Nat × Score} (hpr : pr ∈ e.2) : pr.1 ∈ flat_ids m := by
  induction m with
  | nil => cases he
  | cons f fs ih =>
    show pr.1 ∈ f.2.map Prod.fst ++ flat_ids fs
    rcases List.mem_cons.mp he with he | he
    · subst he
      exact List.mem_append_left _ (List.mem_map_of_mem _ hpr)
    · exact List.mem_append_right _ (ih he)

/-! ### The report table across the loop -/

theorem assignCols_map_base (t : List Row) (dc : Report → ℚ) :
    (assignCols t dc).map Row.base = t.map Row.base := by
  unfold assignCols
  rw [List.map_map]
  rfl

theorem assignCols_assignCols (t : List Row) (dc1 dc2 : Report → ℚ) :
    assignCols (assignCols t dc1) dc2 = assignCols t dc2 := by
  unfold assignCols
  rw [List.map_map]
  rfl

theorem runAux_map_base {Poly : Type} (dc : Poly → Report → ℚ) :
    ∀ (ps : List Poly) (i : Nat) (acc : Coins) (t : List Row),
      ((runAux dc ps i acc t).2).map Row.base = t.map Row.base := by
  intro ps
  induction ps with
  | nil => intro i acc t; rfl
  | cons p ps ih =>
    intro i acc t
    rw [runAux]
    cases hs : polyStep (dc p) (t.map Row.base) with
    | none => exact assignCols_map_base t (dc p)
    | some vs =>
      show ((runAux dc ps (i + 1) _ (assignCols t (dc p))).2).map Row.base = t.map Row.base
      rw [ih, assignCols_map_base]

theorem runAux_snd_last {Poly : Type} (dc : Poly → Report → ℚ) :
    ∀ (ps : List Poly) (i : Nat) (acc : Coins) (t : List Row), ps ≠ [] →
      ∃ p ∈ ps, (runAux dc ps i acc t).2 = assignCols t (dc p) := by
  intro ps
  induction ps with
  | nil => intro i acc t h; exact absurd rfl h
  | cons p ps ih =>
    intro i acc t _
    rw [runAux]
    cases hs : polyStep (dc p) (t.map Row.base) with
    | none => exact ⟨p, List.mem_cons_self _ _, rfl⟩
    | some vs =>
      cases ps with
      | nil => exact ⟨p, List.mem_cons_self _ _, rfl⟩
      | cons q qs =>
        rcases ih (i + 1) (setdefault_append acc vs.1 (i, vs.2)) (assignCols t (dc p))
          (by simp) with ⟨x, hx, heq⟩
        refine ⟨x, List.mem_cons_of_mem _ hx, ?_⟩
        rw [heq, assignCols_assignCols]

/-! ### Monotonicity of the mean inverse distance -/

theorem meanInv_mono {l₁ l₂ : List ℚ} {a b : ℚ} (hb : 0 < b) (hba : b < a) :
    meanInv (l₁ ++ a :: l₂) ≤ meanInv (l₁ ++ b :: l₂) := by
  by_cases hz : (0 : ℚ) ∈ l₁ ++ l₂
  · have hza : (0 : ℚ) ∈ l₁ ++ a :: l₂ := by
      rcases List.mem_append.mp hz with h | h
      · exact List.mem_append_left _ h
      · exact List.mem_append_right _ (List.mem_cons_of_mem _ h)
    have hzb : (0 : ℚ) ∈ l₁ ++ b :: l₂ := by
      rcases List.mem_append.mp hz with h | h
      · exact List.mem_append_left _ h
      · exact List.mem_append_right _ (List.mem_cons_of_mem _ h)
    rw [meanInv_eq_inf_of_mem hza, meanInv_eq_inf_of_mem hzb]
    exact Score.le_rfl _
  · have ha : a ≠ 0 := ne_of_gt (lt_trans hb hba)
    have hbne : b ≠ 0 := ne_of_gt hb
    have hnza : ∀ x ∈ l₁ ++ a :: l₂, x ≠ 0 := by
      intro x hx hx0
      subst hx0
      rcases List.mem_append.mp hx with h | h
      · exact hz (List.mem_append_left _ h)
      · rcases List.mem_cons.mp h with h | h
        · exact ha h.symm
        · exact hz (List.mem_append_right _ h)
    have hnzb : ∀ x ∈ l₁ ++ b :: l₂, x ≠ 0 := by
      intro x hx hx0
      subst hx0
      rcases List.mem_append.mp hx with h | h
      · exact hz (List.mem_append_left _ h)
      · rcases List.mem_cons.mp h with h | h
        · exact hbne h.symm
        · exact hz (List.mem_append_right _ h)
    rw [meanInv_eq_fin hnza, meanInv_eq_fin hnzb, Score.fin_le_fin]
    have hlen : ((l₁ ++ a :: l₂).length : ℚ) = ((l₁ ++ b :: l₂).length : ℚ) := by
      simp
    rw [hlen]
    have hlenpos : (0 : ℚ) < ((l₁ ++ b :: l₂).length : ℚ) := by
      have : 0 < (l₁ ++ b :: l₂).length := by simp
      exact_mod_cast this
    rw [div_le_div_iff_of_pos_right hlenpos]
    rw [List.map_append, List.map_append, List.map_cons, List.map_cons,
      List.sum_append, List.sum_append, List.sum_cons, List.sum_cons]
    have h1ab : 1 / a ≤ 1 / b := one_div_le_one_div_of_le hb (le_of_lt hba)
    exact add_le_add_left (add_le_add_right h1ab _) _

/-! ### The claims -/

/-- Claim C1: for every attribution run that completes over `n` sub-polygons,
the `poly_id`s recorded across all vessels' lists are exactly `0, …, n-1`,
each occurring exactly once (total, disjoint assignment over polygons). -/
theorem C1_total_disjoint {Poly : Type} {dc : Poly → Report → ℚ} {polys : List Poly}
    {raw : List Report} {m : Coins} (h : find_coincidents dc polys raw = some m) :
    List.Perm (flat_ids m) (List.range polys.length) := by
  have h' := runAux_perm dc polys 0 [] (initTable raw) m h
  rw [List.range_eq_range']
  simpa [flat_ids] using h'

theorem C1_total_disjoint_witness :
    find_coincidents dLine [(0 : ℚ), (10 : ℚ)] [wr 1 0 0, wr 1 1 1, wr 2 2 10, wr 2 3 12] =
        some [(1, [(0, Score.inf)]), (2, [(1, Score.inf)])] ∧
      List.Perm (flat_ids [(1, [(0, Score.inf)]), (2, [(1, Score.inf)])]) (List.range 2) :=
  ⟨by decide, C1_total_disjoint (show
    find_coincidents dLine [(0 : ℚ), (10 : ℚ)] [wr 1 0 0, wr 1 1 1, wr 2 2 10, wr 2 3 12] =
      some [(1, [(0, Score.inf)]), (2, [(1, Score.inf)])] from by decide)⟩

/-- Claim C2, counterexample to the claim as stated: vessel 1 has strictly
more direct hits than vessel 2 (one against none), yet the polygon is not
attributed to vessel 1 — all of vessel 1's reports are direct hits, so it is
missing from the `proximity` series and `idxmax` raises (modelled `none`). -/
theorem C2_counterexample :
    hit_count (dLine 0) [wr 1 0 0, wr 2 1 1] 2 < hit_count (dLine 0) [wr 1 0 0, wr 2 1 1] 1 ∧
      polyStep (dLine 0) [wr 1 0 0, wr 2 1 1] = none := by decide

/-- Claim C2 as amended: if vessel `A` has a strictly greater direct-hit count
than every other present vessel AND at least one report at nonzero distance,
then `A` wins the polygon, regardless of the other vessels' proximity
scores. -/
theorem C2_direct_hit_dominance {dc : Report → ℚ} {ais : List Report} {A : Nat}
    (hrep : ∃ r ∈ ais, r.mmsi = A ∧ dc r ≠ 0)
    (hdom : ∀ v ∈ present_mmsis ais, v ≠ A → hit_count dc ais v < hit_count dc ais A) :
    polyStep dc ais = some (A, poly_score dc ais A) := by
  rcases hrep with ⟨r, hr, hmr, hdr⟩
  have hpres : A ∈ present_mmsis ais := mem_present_mmsis.mpr ⟨r, hr, hmr⟩
  have hnh : non_hit_dists dc ais A ≠ [] := by
    have hmem : dc r ∈ non_hit_dists dc ais A := by
      unfold non_hit_dists
      refine List.mem_map_of_mem dc (List.mem_filter.mpr ⟨hr, ?_⟩)
      rw [Bool.and_eq_true]
      exact ⟨by simp [hmr], by simp [hdr]⟩
    exact List.ne_nil_of_mem hmem
  have hml := most_likely_eq_single hpres hdom
  have hcand := candidates_eq_single hpres hml hnh
  unfold polyStep closest_mmsi
  rw [hcand]
  rfl

theorem C2_direct_hit_dominance_witness :
    ((∃ r ∈ [wr 1 0 0, wr 1 1 1, wr 2 2 10], r.mmsi = 1 ∧ dLine 0 r ≠ 0) ∧
      (∀ v ∈ present_mmsis [wr 1 0 0, wr 1 1 1, wr 2 2 10], v ≠ 1 →
        hit_count (dLine 0) [wr 1 0 0, wr 1 1 1, wr 2 2 10] v <
          hit_count (dLine 0) [wr 1 0 0, wr 1 1 1, wr 2 2 10] 1)) ∧
      polyStep (dLine 0) [wr 1 0 0, wr 1 1 1, wr 2 2 10] =
        some (1, poly_score (dLine 0) [wr 1 0 0, wr 1 1 1, wr 2 2 10] 1) :=
  ⟨⟨by decide, by decide⟩, C2_direct_hit_dominance (by decide) (by decide)⟩

/-- Claim C3: a candidate vessel all of whose reports are direct hits should
win with maximal score and the case should not be a failure.  In the code the
vessel is dropped from `proximity` (built over non-hit rows only), so as the
sole most-likely vessel it makes `idxmax` run on an empty series, which raises
`ValueError` — modelled here by `polyStep = none`: nobody wins, and the case
IS a failure.  Concretely: vessel 1 sits inside the polygon (distance 0),
vessel 2 has only nonzero distances. -/
theorem C3_degenerate_failure :
    most_likely_mmsis (dLine 0) [wr 1 0 0, wr 2 1 2] = [1] ∧
      non_hit_dists (dLine 0) [wr 1 0 0, wr 2 1 2] 1 = [] ∧
      (∀ x ∈ non_hit_dists (dLine 0) [wr 1 0 0, wr 2 1 2] 2, 0 < x) ∧
      polyStep (dLine 0) [wr 1 0 0, wr 2 1 2] = none := by decide

/-- Claim C4: when no vessel has a direct hit on the polygon, every present
vessel is a candidate, the winner maximises the mean inverse distance among
all present vessels, and the winner has at least one report. -/
theorem C4_no_hit_fallback {dc : Report → ℚ} {ais : List Report}
    (hne : ais ≠ []) (hnz : ∀ r ∈ ais, dc r ≠ 0) :
    ∃ v s, polyStep dc ais = some (v, s) ∧
      most_likely_mmsis dc ais = present_mmsis ais ∧
      (∃ r ∈ ais, r.mmsi = v) ∧
      (∀ w ∈ present_mmsis ais, prox_mean dc ais w ≤ prox_mean dc ais v) := by
  have hah : any_hits dc ais = false := by
    unfold any_hits
    rw [List.any_eq_false]
    intro r hr
    simp [hnz r hr]
  have hml : most_likely_mmsis dc ais = present_mmsis ais := by
    unfold most_likely_mmsis
    rw [hah]
    rfl
  have hcand : candidates dc ais = present_mmsis ais := by
    unfold candidates
    rw [List.filter_eq_self]
    intro v hv
    rw [Bool.and_eq_true]
    refine ⟨by rw [hml]; exact contains_eq_true_of_mem hv, ?_⟩
    rcases mem_present_mmsis.mp hv with ⟨r, hr, hmr⟩
    have hmem : dc r ∈ non_hit_dists dc ais v := by
      unfold non_hit_dists
      refine List.mem_map_of_mem dc (List.mem_filter.mpr ⟨hr, ?_⟩)
      rw [Bool.and_eq_true]
      exact ⟨by simp [hmr], by simp [hnz r hr]⟩
    cases hl : non_hit_dists dc ais v with
    | nil => rw [hl] at hmem; cases hmem
    | cons x xs => rfl
  obtain ⟨r0, hr0⟩ : ∃ r, r ∈ ais := by
    cases ais with
    | nil => exact absurd rfl hne
    | cons x xs => exact ⟨x, List.mem_cons_self x xs⟩
  have hpne : present_mmsis ais ≠ [] :=
    List.ne_nil_of_mem (mem_present_mmsis.mpr ⟨r0, hr0, rfl⟩)
  have hcne : candidates dc ais ≠ [] := by rw [hcand]; exact hpne
  rcases argmaxFirst_isSome (f := prox_mean dc ais) hcne with ⟨v, hv⟩
  refine ⟨v, poly_score dc ais v, ?_, hml, ?_, ?_⟩
  · unfold polyStep closest_mmsi
    rw [hv]
  · have : v ∈ present_mmsis ais := by
      have := argmaxFirst_mem hv
      rw [hcand] at this
      exact this
    exact mem_present_mmsis.mp this
  · intro w hw
    exact argmaxFirst_le hv w (by rw [hcand]; exact hw)

theorem C4_no_hit_fallback_witness :
    (([wr 1 0 1, wr 2 1 10] : List Report) ≠ [] ∧
      (∀ r ∈ [wr 1 0 1, wr 2 1 10], dLine 5 r ≠ 0)) ∧
      (∃ v s, polyStep (dLine 5) [wr 1 0 1, wr 2 1 10] = some (v, s) ∧
        most_likely_mmsis (dLine 5) [wr 1 0 1, wr 2 1 10] =
          present_mmsis [wr 1 0 1, wr 2 1 10] ∧
        (∃ r ∈ [wr 1 0 1, wr 2 1 10], r.mmsi = v) ∧
        (∀ w ∈ present_mmsis [wr 1 0 1, wr 2 1 10],
          prox_mean (dLine 5) [wr 1 0 1, wr 2 1 10] w ≤
            prox_mean (dLine 5) [wr 1 0 1, wr 2 1 10] v)) :=
  ⟨⟨by decide, by decide⟩, C4_no_hit_fallback (by decide) (by decide)⟩

/-- Claim C5: the recorded score of the winner equals the mean inverse
distance over ALL of the winner's reports (the most-likely restriction plus
group-by collapses to the winner's own rows), with direct hits contributing as
the maximal, infinite value: any direct hit of the winner makes the score
infinite. -/
theorem C5_final_score {dc : Report → ℚ} {ais : List Report} {v : Nat} {s : Score}
    (h : polyStep dc ais = some (v, s)) :
    s = vesselScore dc ais v ∧
      ((∃ r ∈ ais, r.mmsi = v ∧ dc r = 0) → s = Score.inf) := by
  refine ⟨polyStep_score_eq h, ?_⟩
  intro hh
  rw [polyStep_score_eq h]
  exact vesselScore_inf_of_hit hh

theorem C5_final_score_witness :
    polyStep (dLine 0) [wr 1 0 0, wr 1 1 1] = some (1, Score.inf) ∧
      (Score.inf = vesselScore (dLine 0) [wr 1 0 0, wr 1 1 1] 1 ∧
        ((∃ r ∈ [wr 1 0 0, wr 1 1 1], r.mmsi = 1 ∧ dLine 0 r = 0) →
          Score.inf = Score.inf)) :=
  ⟨by decide, C5_final_score (show
    polyStep (dLine 0) [wr 1 0 0, wr 1 1 1] = some (1, Score.inf) from by decide)⟩

/-- Claim C6, counterexample to the claim as stated: with zero reports the
very first polygon's `idxmax` raises and the whole run aborts (`none`): no
per-polygon error is recorded, no partial result is accumulated, no list of
failed polygon ids exists, and the second polygon is never processed. -/
theorem C6_counterexample :
    find_coincidents dLine [(0 : ℚ), (5 : ℚ)] ([] : List Report) = none := by decide

/-- Claim C6 as amended: if there are zero reports, the attribution run fails
as a whole on the first polygon (uncaught `ValueError`, modelled `none`); no
partial result and no failed-polygon list are produced. -/
theorem C6_empty_aborts {Poly : Type} (dc : Poly → Report → ℚ) (polys : List Poly)
    (hne : polys ≠ []) : find_coincidents dc polys ([] : List Report) = none := by
  cases polys with
  | nil => exact absurd rfl hne
  | cons p ps => rfl

theorem C6_empty_aborts_witness :
    ([(1 : ℚ), (2 : ℚ), (3 : ℚ)] ≠ ([] : List ℚ)) ∧
      find_coincidents dLine [(1 : ℚ), (2 : ℚ), (3 : ℚ)] ([] : List Report) = none :=
  ⟨by decide, C6_empty_aborts dLine [(1 : ℚ), (2 : ℚ), (3 : ℚ)] (by decide)⟩

/-- Claim C7: for every vessel of a completed run, the aggregated multipolygon
consists of exactly the sub-polygons whose `poly_id` was attributed to that
vessel (every attributed id indexes a sub-polygon that appears, and nothing
else appears), and the line geometry visits the vessel's reports in ascending
timestamp order. -/
theorem C7_aggregation {Poly : Type} {dc : Poly → Report → ℚ} {polys : List Poly}
    {raw : List Report} {m : Coins} (h : find_coincidents dc polys raw = some m) :
    ∀ e ∈ m,
      (e.1, multiOf polys e.2, lineOf (sort_by_ts raw) e.1) ∈
          record_coincidents polys (sort_by_ts raw) m ∧
        (multiOf polys e.2).length = e.2.length ∧
        (∀ q ∈ multiOf polys e.2, ∃ pr ∈ e.2, polys.get? pr.1 = some q) ∧
        (∀ pr ∈ e.2, ∃ q, polys.get? pr.1 = some q ∧ q ∈ multiOf polys e.2) ∧
        List.Sorted (· ≤ ·) ((lineOf (sort_by_ts raw) e.1).map Report.timestamp) := by
  intro e he
  have hids : ∀ pr ∈ e.2, pr.1 < polys.length := by
    intro pr hpr
    have hflat : pr.1 ∈ flat_ids m := mem_flat_ids he hpr
    have hperm := runAux_perm dc polys 0 [] (initTable raw) m h
    have hmem : pr.1 ∈ List.range' 0 polys.length := by
      have := hperm.mem_iff.mp hflat
      simpa [flat_ids] using this
    rw [← List.range_eq_range'] at hmem
    exact List.mem_range.mp hmem
  have hgets : ∀ pr ∈ e.2, ∃ q, polys.get? pr.1 = some q := by
    intro pr hpr
    have hne : polys.get? pr.1 ≠ none := fun hnone =>
      Nat.not_le.mpr (hids pr hpr) (List.get?_eq_none.mp hnone)
    exact Option.isSome_iff_exists.mp (Option.ne_none_iff_isSome.mp hne)
  refine ⟨?_, ?_, ?_, ?_, ?_⟩
  · exact List.mem_map_of_mem _ he
  · unfold multiOf
    refine filterMap_length_of_isSome ?_
    intro pr hpr
    rcases hgets pr hpr with ⟨q, hq⟩
    rw [hq]
    rfl
  · intro q hq
    rcases List.mem_filterMap.mp hq with ⟨pr, hpr, hpq⟩
    exact ⟨pr, hpr, hpq⟩
  · intro pr hpr
    rcases hgets pr hpr with ⟨q, hq⟩
    exact ⟨q, hq, List.mem_filterMap.mpr ⟨pr, hpr, hq⟩⟩
  · have hsorted : List.Sorted tsLe (sort_by_ts raw) := List.sorted_insertionSort tsLe raw
    have hsub : List.Sublist (lineOf (sort_by_ts raw) e.1) (sort_by_ts raw) :=
      List.filter_sublist _
    have hline : List.Pairwise tsLe (lineOf (sort_by_ts raw) e.1) := hsorted.sublist hsub
    exact List.pairwise_map.mpr hline

theorem C7_aggregation_witness :
    find_coincidents dLine [(0 : ℚ), (10 : ℚ)] [wr 1 0 0, wr 1 1 1, wr 2 2 10, wr 2 3 12] =
        some [(1, [(0, Score.inf)]), (2, [(1, Score.inf)])] ∧
      (multiOf [(0 : ℚ), (10 : ℚ)] [(0, Score.inf)]).length =
        [((0 : Nat), Score.inf)].length ∧
      List.Sorted (· ≤ ·)
        ((lineOf (sort_by_ts [wr 1 0 0, wr 1 1 1, wr 2 2 10, wr 2 3 12]) 1).map
          Report.timestamp) :=
  ⟨by decide,
    (C7_aggregation (show
      find_coincidents dLine [(0 : ℚ), (10 : ℚ)] [wr 1 0 0, wr 1 1 1, wr 2 2 10, wr 2 3 12] =
        some [(1, [(0, Score.inf)]), (2, [(1, Score.inf)])] from by decide)
      (1, [(0, Score.inf)]) (by decide)).2.1,
    (C7_aggregation (show
      find_coincidents dLine [(0 : ℚ), (10 : ℚ)] [wr 1 0 0, wr 1 1 1, wr 2 2 10, wr 2 3 12] =
        some [(1, [(0, Score.inf)]), (2, [(1, Score.inf)])] from by decide)
      (1, [(0, Score.inf)]) (by decide)).2.2.2.2⟩

/-- Claim C8: replacing one report of vessel `A` at strictly positive distance
by one at a strictly smaller but still positive distance, all other reports
unchanged, never decreases `A`'s score for the polygon. -/
theorem C8_monotonicity {dc : Report → ℚ} {u w : List Report} {r r' : Report} {A : Nat}
    (hr : r.mmsi = A) (hr' : r'.mmsi = A) (hpos : 0 < dc r') (hlt : dc r' < dc r) :
    vesselScore dc (u ++ r :: w) A ≤ vesselScore dc (u ++ r' :: w) A := by
  have h1 : reportsOf (u ++ r :: w) A = reportsOf u A ++ r :: reportsOf w A := by
    unfold reportsOf
    rw [List.filter_append, List.filter_cons]
    simp [hr]
  have h2 : reportsOf (u ++ r' :: w) A = reportsOf u A ++ r' :: reportsOf w A := by
    unfold reportsOf
    rw [List.filter_append, List.filter_cons]
    simp [hr']
  unfold vesselScore
  rw [h1, h2, List.map_append, List.map_cons, List.map_append, List.map_cons]
  exact meanInv_mono hpos hlt

theorem C8_monotonicity_witness :
    ((wr 1 1 2).mmsi = 1 ∧ (wr 1 0 1).mmsi = 1 ∧ 0 < dLine 0 (wr 1 0 1) ∧
      dLine 0 (wr 1 0 1) < dLine 0 (wr 1 1 2)) ∧
      vesselScore (dLine 0) ([] ++ wr 1 1 2 :: []) 1 ≤
        vesselScore (dLine 0) ([] ++ wr 1 0 1 :: []) 1 :=
  ⟨⟨rfl, rfl, by decide, by decide⟩, C8_monotonicity rfl rfl (by decide) (by decide)⟩

/-- Claim C9: the `inv` column is `1 / dist` with no guard at zero (`invTop 0`
is the infinity `1 / 0.0` produces), so whenever the winning vessel has a
direct hit the recorded score is infinite rather than a finite confidence. -/
theorem C9_infinite_score {dc : Report → ℚ} {ais : List Report} {v : Nat} {s : Score}
    (h : polyStep dc ais = some (v, s)) (hh : ∃ r ∈ ais, r.mmsi = v ∧ dc r = 0) :
    invTop 0 = Score.inf ∧ s = Score.inf := by
  refine ⟨by simp [invTop], ?_⟩
  rw [polyStep_score_eq h]
  exact vesselScore_inf_of_hit hh

theorem C9_infinite_score_witness :
    (polyStep (dLine 0) [wr 3 0 0, wr 3 1 1] = some (3, Score.inf) ∧
      (∃ r ∈ [wr 3 0 0, wr 3 1 1], r.mmsi = 3 ∧ dLine 0 r = 0)) ∧
      (invTop 0 = Score.inf ∧ Score.inf = Score.inf) :=
  ⟨⟨by decide, by decide⟩,
    C9_infinite_score (show
      polyStep (dLine 0) [wr 3 0 0, wr 3 1 1] = some (3, Score.inf) from by decide)
      (by decide)⟩

/-- Claim C10: the run touches the report table only through the derived
`dist`/`inv` columns: the underlying reports (mmsi, timestamp, position,
speed) and the row set and order are exactly the sorted input, and the final
column values are the single last write for one of the polygons. -/
theorem C10_frame {Poly : Type} (dc : Poly → Report → ℚ) (polys : List Poly)
    (raw : List Report) :
    (tableAfter dc polys raw).map Row.base = sort_by_ts raw ∧
      (polys ≠ [] → ∃ p ∈ polys,
        tableAfter dc polys raw = assignCols (initTable raw) (dc p)) := by
  constructor
  · unfold tableAfter runFull
    rw [runAux_map_base]
    unfold initTable
    rw [List.map_map]
    exact List.map_id _
  · intro hne
    exact runAux_snd_last dc polys 0 [] (initTable raw) hne

theorem C10_frame_witness :
    (tableAfter dLine [(0 : ℚ)] [wr 1 0 0, wr 2 1 1]).map Row.base =
        sort_by_ts [wr 1 0 0, wr 2 1 1] ∧
      ∃ p ∈ [(0 : ℚ)], tableAfter dLine [(0 : ℚ)] [wr 1 0 0, wr 2 1 1] =
        assignCols (initTable [wr 1 0 0, wr 2 1 1]) (dLine p) :=
  ⟨(C10_frame dLine [(0 : ℚ)] [wr 1 0 0, wr 2 1 1]).1,
    (C10_frame dLine [(0 : ℚ)] [wr 1 0 0, wr 2 1 1]).2 (by decide)⟩

end Cerulean
